import Mathlib

/-!
Verification development for the `EM-algo` repository: an EM (Expectation-
Maximization) engine for finite mixtures of parametric distributions, its
composable breakpointers and distribution checkers, the scipy optimizer
wrappers, and the acceptance test `test_two_same_distributions_simple`.

Numeric values are embedded as exact rationals `ℚ` (idealizing the floating
point of the source); parameter vectors as `List ℚ`.
-/

namespace EMAlgo

/-- A parameter vector: an ordered, fixed-length numeric vector. -/
abbrev Params := List ℚ

/-- Modelled from the spec: the Model capability set (§3) — log-density,
plain-space density (the exponential of the log-density, which the E-step
normalization consumes; kept abstract since `ℚ` has no `exp`), sampling,
and parameter (de)serialization. Stateless, shared across Distributions
of the same family. -/
structure Model where
  log_density : Params → ℚ → ℚ
  density : Params → ℚ → ℚ
  generate : Params → Nat → List ℚ
  params_convert_to_model : Params → Params
  params_convert_from_model : Params → Params

/-- Modelled from the spec: a Distribution pairs a parametric model with a
concrete parameter vector. -/
structure Distribution where
  model : Model
  params : Params

/-- Modelled from the spec: a DistributionMixture is an ordered collection of
weighted Distributions: `components` is the ordered sequence of
`(Distribution, prior_probability)` pairs. -/
structure DistributionMixture where
  components : List (Distribution × ℚ)

/-- The ordered list of component parameter vectors (what iterating the
mixture and taking `d.params` yields in the test). -/
def DistributionMixture.paramsList (m : DistributionMixture) : List Params :=
  m.components.map (fun c => c.1.params)

/-- The ordered list of prior probabilities. -/
def DistributionMixture.priors (m : DistributionMixture) : List ℚ :=
  m.components.map (fun c => c.2)

/-- Modelled from the spec: the error kinds of §7 plus the construction
error of §4.1. -/
inductive ErrorKind
  | invalidProblem
  | invalidMixture
  | degenerateMixture
  | vanishingComponent
deriving DecidableEq

/-- Modelled from the spec: `Result` is a sum type — `Success{content}` or
`Failure{error}`, exactly one variant populated. -/
inductive Result
  | success (content : DistributionMixture)
  | failure (error : ErrorKind)

/-- `result.error`: `none` on success (as asserted by the test). -/
def Result.error : Result → Option ErrorKind
  | .success _ => none
  | .failure e => some e

/-- `result.content`: the final mixture on success, nothing on failure. -/
def Result.content : Result → Option DistributionMixture
  | .success m => some m
  | .failure _ => none

/-- Modelled from the spec (§4.1): `from_distributions` assigns each
distribution an equal prior probability `1/K`; fails with
`InvalidMixtureError` if the list is empty. -/
def DistributionMixture.from_distributions (ds : List Distribution) :
    Except ErrorKind DistributionMixture :=
  if ds.isEmpty then .error .invalidMixture
  else .ok ⟨ds.map (fun d => (d, (1 : ℚ) / (ds.length : ℚ)))⟩

/-- Modelled from the spec: a Problem bundles observed samples with an
initial mixture guess; immutable unit of work submitted to EM. -/
structure Problem where
  samples : List ℚ
  distributions : DistributionMixture

/-- The Optimizer interface consumed by the EM core: a diagnostic name and
`minimize(objective, initial) -> params`. -/
structure Optimizer where
  name : String
  minimize : (Params → ℚ) → Params → Params

/-- Modelled from the spec: a Breakpointer decides, given the iteration count
and the mixture history, whether EM should stop. -/
structure Breakpointer where
  should_stop : Nat → List DistributionMixture → Bool

/-- Modelled from the spec (§9): the flat "AnyOf" composite of breakpointers
produced by the `+` composition, evaluated by iterating with logical OR. -/
structure UnionBreakpointer where
  breakpointers : List Breakpointer

/-- The composite stops when any member stops. -/
def UnionBreakpointer.should_stop (u : UnionBreakpointer)
    (iteration : Nat) (history : List DistributionMixture) : Bool :=
  u.breakpointers.any (fun b => b.should_stop iteration history)

/-- Modelled from the spec: `A + B` on breakpointers builds the flat
composite holding both. -/
def Breakpointer.add (a b : Breakpointer) : UnionBreakpointer :=
  ⟨[a, b]⟩

/-- View a composite breakpointer through the single-method interface. -/
def UnionBreakpointer.toBreakpointer (u : UnionBreakpointer) : Breakpointer :=
  ⟨u.should_stop⟩

/-- Modelled from the spec: a DistributionChecker reports
`is_invalid(mixture) -> Optional[ErrorKind]` (`none` = valid). -/
structure DistributionChecker where
  is_invalid : DistributionMixture → Option ErrorKind

/-- Modelled from the spec (§9): the "FirstOf" composite of distribution
checkers produced by `+`, evaluated by short-circuiting on the first
reported invalidity. -/
structure UnionDistributionChecker where
  checkers : List DistributionChecker

/-- The composite reports the first invalidity among its members. -/
def UnionDistributionChecker.is_invalid (u : UnionDistributionChecker)
    (m : DistributionMixture) : Option ErrorKind :=
  u.checkers.findSome? (fun c => c.is_invalid m)

/-- Modelled from the spec: `A + B` on distribution checkers builds the flat
short-circuiting composite holding both. -/
def DistributionChecker.add (a b : DistributionChecker) : UnionDistributionChecker :=
  ⟨[a, b]⟩

/-- View a composite checker through the single-method interface. -/
def UnionDistributionChecker.toChecker (u : UnionDistributionChecker) : DistributionChecker :=
  ⟨u.is_invalid⟩

/-- Modelled from the spec (§4.3): `StepCountBreakpointer(max_steps)` stops
when `iteration >= max_steps`. -/
def StepCountBreakpointer (max_steps : Nat) : Breakpointer :=
  ⟨fun iteration _ => decide (max_steps ≤ iteration)⟩

/-- Maximum of a list of rationals, `0` for the empty list (the source always
takes it over at least the empty collection of parameter deltas). -/
def maxList (l : List ℚ) : ℚ :=
  l.foldr max 0

/-- Maximum absolute componentwise difference of two parameter vectors
(matched by position, truncating at the shorter). -/
def paramsMaxAbsDiff (x y : Params) : ℚ :=
  maxList ((x.zip y).map (fun p => |p.1 - p.2|))

/-- Modelled from the spec: the maximum absolute per-parameter change between
two mixtures, components matched by position. -/
def maxAbsParamDiff (a b : DistributionMixture) : ℚ :=
  maxList ((a.paramsList.zip b.paramsList).map (fun p => paramsMaxAbsDiff p.1 p.2))

/-- Modelled from the spec (§4.3): `ParamDifferBreakpointer(deviation)` stops
when the maximum absolute per-parameter change between the two most recent
mixtures is `<= deviation`; with fewer than 2 history entries it never
stops. History is ordered oldest first, so the two most recent are the
last two. -/
def ParamDifferBreakpointer (deviation : ℚ) : Breakpointer :=
  ⟨fun _ history =>
    match history.reverse with
    | b :: a :: _ => decide (maxAbsParamDiff a b ≤ deviation)
    | _ => false⟩

/-- Modelled from the spec (§4.4): `FiniteChecker` flags NaN/infinite
parameters or weights. Exact rationals have no NaN or infinity, so in this
embedding every mixture is finite; the degenerate E-step rows that produce
such values in the source surface as `degenerateMixture` in `eStep`. -/
def FiniteChecker : DistributionChecker :=
  ⟨fun _ => none⟩

/-- Modelled from the spec (§4.4): `PriorProbabilityThresholdChecker` is
invalid if any prior probability falls below the threshold. -/
def PriorProbabilityThresholdChecker (threshold : ℚ) : DistributionChecker :=
  ⟨fun m => if m.priors.any (fun p => decide (p < threshold))
            then some .vanishingComponent else none⟩

/-! ## scipy optimizer wrappers (from `src/mpest/optimizers/`)

`scipy.optimize.minimize` is an external routine; it is embedded
abstractly as a function argument taking the method string, the objective
and the initial point, and returning an `OptimizeResult` whose `x` field
the wrappers project out. -/

/-- The scipy result record: the wrappers use only its `x` field. -/
structure OptimizeResult where
  x : Params

/-- Modelled from the spec: the external `scipy.optimize.minimize` routine,
abstracted as method-name → objective → initial point → result. -/
abbrev ScipyMinimizeFn := String → (Params → ℚ) → Params → OptimizeResult

/-- `ScipyCOBYLA.name` (`src/mpest/optimizers/scipy_cobyla.py`). -/
def ScipyCOBYLA.name : String := "ScipyCOBYLA"

/-- `ScipyCOBYLA.minimize` returns `minimize(func, params, method="COBYLA").x`
(`src/mpest/optimizers/scipy_cobyla.py`). -/
def ScipyCOBYLA.minimize (scipy_minimize : ScipyMinimizeFn)
    (func : Params → ℚ) (params : Params) : Params :=
  (scipy_minimize "COBYLA" func params).x

/-- `ScipySLSQP.name` (`src/mpest/optimizers/scipy_slsqp.py`). -/
def ScipySLSQP.name : String := "ScipySLSQP"

/-- `ScipySLSQP.minimize` returns `minimize(func, params, method="SLSQP").x`
(`src/mpest/optimizers/scipy_slsqp.py`). -/
def ScipySLSQP.minimize (scipy_minimize : ScipyMinimizeFn)
    (func : Params → ℚ) (params : Params) : Params :=
  (scipy_minimize "SLSQP" func params).x

/-! ## The acceptance metric (from `src/tests/test_two_same_distributions_simple.py`) -/

/-- `np.sum(np.abs(x - y))` for two parameter vectors. -/
def paramsAbsDiff (x y : Params) : ℚ :=
  ((x.zip y).map (fun p => |p.1 - p.2|)).sum

/-- `sum(np.sum(np.abs(x - y)) for x, y in zip(a_p, _b_p))`. -/
def sumDiff (ap bp : List Params) : ℚ :=
  ((ap.zip bp).map (fun p => paramsAbsDiff p.1 p.2)).sum

/-- Python's `min` over a non-empty collection (the source applies it to the
permutations of a list, which is never empty; the `[]` case is unreachable
there and defaults to `0`). -/
def minD : List ℚ → ℚ
  | [] => 0
  | h :: t => t.foldl min h

/-- `absolute_diff_params` from the test: the minimum over all permutations
of `b`'s component parameters of the summed absolute difference against
`a`'s component parameters. -/
def absolute_diff_params (a b : DistributionMixture) : ℚ :=
  minD ((b.paramsList.permutations).map (fun bp => sumDiff a.paramsList bp))

/-! ## The EM engine (modelled from the spec, §4.2)

The engine is not part of the excerpt under `src/`; it is modelled from the
spec. The loop carries explicit fuel (the source loop is bounded in practice
by a step-count breakpointer; fuel exhaustion returns the latest mixture the
way a step-count cap would). The outcome records, besides the `Result`, the
history of mixtures (initial mixture plus every mixture that passed the
validity gate) and the number of Optimizer invocations — observable
instrumentation used to state the spec's invariants. -/

/-- E-step, one sample: responsibilities `r_k = π_k p_k(x) / Σ_j π_j p_j(x)`.
A degenerate row (zero normalizer: every component gives the sample zero
density, the exact-arithmetic counterpart of the all-`-inf` row) is not
computed and propagates toward a degenerate-mixture failure. -/
def eStepRow (mix : DistributionMixture) (x : ℚ) : Option (List ℚ) :=
  let weighted := mix.components.map (fun c => c.2 * c.1.model.density c.1.params x)
  let d := weighted.sum
  if d = 0 then none else some (weighted.map (fun w => w / d))

/-- E-step over all samples: the responsibility matrix, one row per sample,
one column per component; `none` as soon as some row is degenerate. -/
def eStep (mix : DistributionMixture) : List ℚ → Option (List (List ℚ))
  | [] => some []
  | x :: xs =>
    match eStepRow mix x, eStep mix xs with
    | some r, some rs => some (r :: rs)
    | _, _ => none

/-- Columnwise sums of the responsibility matrix, `K` columns. -/
def columnSums (K : Nat) (rows : List (List ℚ)) : List ℚ :=
  rows.foldl (fun acc r => List.zipWith (· + ·) acc r) (List.replicate K 0)

/-- Column `k` of the responsibility matrix: each sample's responsibility
for component `k`. -/
def column (rows : List (List ℚ)) (k : Nat) : List ℚ :=
  rows.map (fun row => row.getD k 0)

/-- The M-step objective for one component: the negative weighted expected
log-likelihood `-Σ_i r_ik · log p(x_i; θ)`, minimized over `θ`. -/
def objective (model : Model) (samples : List ℚ) (respCol : List ℚ) :
    Params → ℚ :=
  fun θ => -(((samples.zip respCol).map (fun p => p.2 * model.log_density θ p.1)).sum)

/-- M-step component rebuild: each component keeps its model, gets the new
prior and the Optimizer's minimizer of its objective, seeded at the
component's current params. `k` indexes the responsibility column. -/
def mStepComponents (opt : Optimizer) (samples : List ℚ)
    (resp : List (List ℚ)) :
    List (Distribution × ℚ) → List ℚ → Nat → List (Distribution × ℚ)
  | [], _, _ => []
  | _, [], _ => []
  | c :: cs, pri :: pris, k =>
    (⟨c.1.model,
      opt.minimize (objective c.1.model samples (column resp k)) c.1.params⟩, pri)
      :: mStepComponents opt samples resp cs pris (k + 1)

/-- M-step: `π_k ← mean_i r_ik`, params re-estimated by the Optimizer; a new
mixture is produced (the old one is discarded, not mutated). Also returns
the number of Optimizer invocations made (one per component). -/
def mStep (opt : Optimizer) (samples : List ℚ) (mix : DistributionMixture)
    (resp : List (List ℚ)) : DistributionMixture × Nat :=
  let n : ℚ := (samples.length : ℚ)
  let K := mix.components.length
  let priors := (columnSums K resp).map (fun s => s / n)
  (⟨mStepComponents opt samples resp mix.components priors 0⟩, K)

/-- Outcome of a run of `EM.solve`: the `Result` plus the observable
instrumentation (mixture history and Optimizer invocation count). -/
structure RunOutcome where
  result : Result
  history : List DistributionMixture
  optimizerCalls : Nat

/-- The EM engine: a Breakpointer, a DistributionChecker, an Optimizer. -/
structure EM where
  breakpointer : Breakpointer
  distribution_checker : DistributionChecker
  optimizer : Optimizer

/-- The EM iteration loop: E-step, M-step, validity gate, stop gate. The
validity gate is consulted strictly before the stop gate, and a mixture
enters the history only after passing the validity gate (the corrupt
mixture is never exposed). -/
def EM.loop (em : EM) (samples : List ℚ) :
    Nat → DistributionMixture → List DistributionMixture → Nat → Nat → RunOutcome
  | 0, cur, hist, _, calls => ⟨.success cur, hist, calls⟩
  | fuel + 1, cur, hist, iteration, calls =>
    match eStep cur samples with
    | none => ⟨.failure .degenerateMixture, hist, calls⟩
    | some resp =>
      let step := mStep em.optimizer samples cur resp
      match em.distribution_checker.is_invalid step.1 with
      | some e => ⟨.failure e, hist, calls + step.2⟩
      | none =>
        let hist' := hist ++ [step.1]
        if em.breakpointer.should_stop (iteration + 1) hist' then
          ⟨.success step.1, hist', calls + step.2⟩
        else
          EM.loop em samples fuel step.1 hist' (iteration + 1) (calls + step.2)

/-- `EM.solve`: rejects an empty sample set before iteration begins
(`InvalidProblemError`), otherwise runs the loop from the problem's
mixture. -/
def EM.solve (em : EM) (fuel : Nat) (problem : Problem) : RunOutcome :=
  if problem.samples.isEmpty then ⟨.failure .invalidProblem, [], 0⟩
  else EM.loop em problem.samples fuel problem.distributions
        [problem.distributions] 0 0

/-! ## The test body (from `src/tests/test_two_same_distributions_simple.py`)

The construction of the `Problem` handed to `EM.solve` in the test body:
each model generates `size` samples from its true `param`, the pooled
samples are shuffled (`np.random.shuffle`, abstracted as a function
argument), and the starting mixture is built from converted parameters.
As in the source, both `c_params` and `c_start_params` apply
`params_convert_to_model` to `params` — `start_params` is converted to
arrays and then never used. -/
def buildTestProblem (models : List Model) (params start_params : List Params)
    (size : Nat) (shuffle : List ℚ → List ℚ) : Except ErrorKind Problem :=
  let x := shuffle (((models.zip params).map (fun p => p.1.generate p.2 size)).flatten)
  let c_start_params := (models.zip params).map
    (fun p => p.1.params_convert_to_model p.2)
  (DistributionMixture.from_distributions
      ((models.zip c_start_params).map (fun p => Distribution.mk p.1 p.2))).map
    (fun mix => ⟨x, mix⟩)

/-- A trivial concrete model used to instantiate theorems at concrete
mixtures. -/
def unitModel : Model :=
  ⟨fun _ _ => 0, fun _ _ => 1, fun _ n => List.replicate n 0, id, id⟩

/-- Concrete two-component mixture `[1], [5]` with equal priors. -/
def mixA : DistributionMixture :=
  ⟨[(⟨unitModel, [1]⟩, 1/2), (⟨unitModel, [5]⟩, 1/2)]⟩

/-- `mixA` with its components swapped. -/
def mixA2 : DistributionMixture :=
  ⟨[(⟨unitModel, [5]⟩, 1/2), (⟨unitModel, [1]⟩, 1/2)]⟩

/-- Concrete two-component mixture `[2], [3]` with equal priors. -/
def mixB : DistributionMixture :=
  ⟨[(⟨unitModel, [2]⟩, 1/2), (⟨unitModel, [3]⟩, 1/2)]⟩

/-- The spec's prior-probability invariant: non-negative priors whose sum
differs from `1` by strictly less than `1e-9`. -/
def MixtureOK (m : DistributionMixture) : Prop :=
  (∀ p ∈ m.priors, 0 ≤ p) ∧ |m.priors.sum - 1| < 1 / 1000000000

/-- The exact form of the invariant the model maintains: non-negative priors
summing to exactly `1`. -/
def StrongOK (m : DistributionMixture) : Prop :=
  (∀ p ∈ m.priors, 0 ≤ p) ∧ m.priors.sum = 1

/-- Every component model of the mixture assigns non-negative density
everywhere (densities are densities). -/
def NonnegDensities (m : DistributionMixture) : Prop :=
  ∀ c ∈ m.components, ∀ θ x, 0 ≤ c.1.model.density θ x

/-! ## Helper lemmas on `minD`, `sumDiff` and permutations -/

lemma foldl_min_le_init (t : List ℚ) : ∀ h : ℚ, t.foldl min h ≤ h := by
  induction t with
  | nil => intro h; simp
  | cons x t ih =>
    intro h
    rw [List.foldl_cons]
    exact le_trans (ih (min h x)) (min_le_left h x)

lemma foldl_min_mem (t : List ℚ) : ∀ h : ℚ, t.foldl min h ∈ h :: t := by
  induction t with
  | nil => intro h; simp
  | cons x t ih =>
    intro h
    rw [List.foldl_cons]
    rcases List.mem_cons.mp (ih (min h x)) with hc | hc
    · rcases min_choice h x with hm | hm
      · exact List.mem_cons.mpr (Or.inl (hc.trans hm))
      · exact List.mem_cons_of_mem _ (List.mem_cons.mpr (Or.inl (hc.trans hm)))
    · exact List.mem_cons_of_mem _ (List.mem_cons_of_mem _ hc)

lemma foldl_min_le (t : List ℚ) :
    ∀ (acc x : ℚ), x ∈ acc :: t → t.foldl min acc ≤ x := by
  induction t with
  | nil =>
    intro acc x hx
    rw [List.mem_singleton] at hx
    simp [hx]
  | cons y t ih =>
    intro acc x hx
    rw [List.foldl_cons]
    rcases List.mem_cons.mp hx with h1 | h1
    · exact le_trans (le_trans (foldl_min_le_init t (min acc y)) (min_le_left acc y))
        (le_of_eq h1.symm)
    · rcases List.mem_cons.mp h1 with h2 | h2
      · exact le_trans (le_trans (foldl_min_le_init t (min acc y)) (min_le_right acc y))
          (le_of_eq h2.symm)
      · exact ih (min acc y) x (List.mem_cons_of_mem _ h2)

lemma minD_mem {l : List ℚ} (h : l ≠ []) : minD l ∈ l := by
  cases l with
  | nil => exact absurd rfl h
  | cons x t => exact foldl_min_mem t x

lemma minD_le {l : List ℚ} {x : ℚ} (hx : x ∈ l) : minD l ≤ x := by
  cases l with
  | nil => cases hx
  | cons h t => exact foldl_min_le t h x hx

lemma minD_eq_of_mem_exchange {l₁ l₂ : List ℚ} (hne₁ : l₁ ≠ []) (hne₂ : l₂ ≠ [])
    (h₁ : ∀ x ∈ l₁, ∃ y ∈ l₂, x = y) (h₂ : ∀ x ∈ l₂, ∃ y ∈ l₁, x = y) :
    minD l₁ = minD l₂ := by
  apply le_antisymm
  · obtain ⟨y, hy, hxy⟩ := h₂ (minD l₂) (minD_mem hne₂)
    exact hxy ▸ minD_le hy
  · obtain ⟨y, hy, hxy⟩ := h₁ (minD l₁) (minD_mem hne₁)
    exact hxy ▸ minD_le hy

lemma minD_perm {l₁ l₂ : List ℚ} (h : l₁.Perm l₂) : minD l₁ = minD l₂ := by
  rcases eq_or_ne l₁ [] with h1 | h1
  · subst h1
    rw [h.symm.eq_nil]
  · have h2 : l₂ ≠ [] := by
      intro h2
      subst h2
      exact h1 h.eq_nil
    exact minD_eq_of_mem_exchange h1 h2
      (fun x hx => ⟨x, h.mem_iff.mp hx, rfl⟩)
      (fun x hx => ⟨x, h.mem_iff.mpr hx, rfl⟩)

lemma sumDiff_cons (x y : Params) (l t : List Params) :
    sumDiff (x :: l) (y :: t) = paramsAbsDiff x y + sumDiff l t := by
  simp [sumDiff]

lemma paramsAbsDiff_self (x : Params) : paramsAbsDiff x x = 0 := by
  induction x with
  | nil => rfl
  | cons v l ih =>
    simpa [paramsAbsDiff, maxList] using ih

lemma sumDiff_self (ap : List Params) : sumDiff ap ap = 0 := by
  induction ap with
  | nil => rfl
  | cons x l ih => rw [sumDiff_cons, ih, paramsAbsDiff_self, add_zero]

lemma paramsAbsDiff_nonneg (x y : Params) : 0 ≤ paramsAbsDiff x y := by
  apply List.sum_nonneg
  intro v hv
  obtain ⟨q, _, rfl⟩ := List.mem_map.mp hv
  exact abs_nonneg _

lemma sumDiff_nonneg (ap bp : List Params) : 0 ≤ sumDiff ap bp := by
  apply List.sum_nonneg
  intro v hv
  obtain ⟨p, _, rfl⟩ := List.mem_map.mp hv
  exact paramsAbsDiff_nonneg _ _

/-- Reordering the left argument of `sumDiff` can be traded for a matching
reordering of the right argument, when lengths agree. -/
lemma sumDiff_exists_perm {a' a : List Params} (h : a'.Perm a) :
    ∀ bp : List Params, bp.length = a'.length →
      ∃ bp', bp'.Perm bp ∧ sumDiff a' bp = sumDiff a bp' := by
  induction h with
  | nil =>
    intro bp _
    exact ⟨bp, List.Perm.refl bp, rfl⟩
  | cons x h' ih =>
    intro bp hl
    cases bp with
    | nil => exact absurd hl (by simp)
    | cons y t =>
      obtain ⟨t', ht', heq⟩ := ih t (by simpa using hl)
      exact ⟨y :: t', ht'.cons y, by rw [sumDiff_cons, sumDiff_cons, heq]⟩
  | swap x y l =>
    intro bp hl
    cases bp with
    | nil => exact absurd hl (by simp)
    | cons z t =>
      cases t with
      | nil => exfalso; simp at hl
      | cons w t' =>
        refine ⟨w :: z :: t', List.Perm.swap z w t', ?_⟩
        rw [sumDiff_cons, sumDiff_cons, sumDiff_cons, sumDiff_cons]
        ring
  | trans h₁ h₂ ih₁ ih₂ =>
    intro bp hl
    obtain ⟨bp', hp', he1⟩ := ih₁ bp hl
    obtain ⟨bp'', hp'', he2⟩ := ih₂ bp' (by rw [hp'.length_eq, hl, h₁.length_eq])
    exact ⟨bp'', hp''.trans hp', he1.trans he2⟩

/-! ## Claim theorems -/

/-- C3: `absolute_diff_params` is invariant under any reordering of the
components of either mixture, for mixtures with the same number of
components. -/
theorem absolute_diff_params_perm_invariant
    (a b a2 b2 : DistributionMixture)
    (hlen : a.components.length = b.components.length)
    (ha : a2.components.Perm a.components)
    (hb : b2.components.Perm b.components) :
    absolute_diff_params a2 b2 = absolute_diff_params a b := by
  have hpa : a2.paramsList.Perm a.paramsList := ha.map _
  have hpb : b2.paramsList.Perm b.paramsList := hb.map _
  have hlen2 : b.paramsList.length = a2.paramsList.length := by
    have h1 := ha.length_eq
    simp only [DistributionMixture.paramsList, List.length_map]
    omega
  have step1 : absolute_diff_params a2 b2 = absolute_diff_params a2 b :=
    minD_perm ((hpb.permutations).map _)
  have hne : ∀ ap (m : DistributionMixture),
      (m.paramsList.permutations.map (fun bp => sumDiff ap bp)) ≠ [] :=
    fun ap m => List.ne_nil_of_mem
      (List.mem_map_of_mem _ (List.mem_permutations.mpr (List.Perm.refl _)))
  have step2 : absolute_diff_params a2 b = absolute_diff_params a b := by
    apply minD_eq_of_mem_exchange (hne _ b) (hne _ b)
    · intro v hv
      obtain ⟨bp, hbp, rfl⟩ := List.mem_map.mp hv
      have hbperm : bp.Perm b.paramsList := List.mem_permutations.mp hbp
      obtain ⟨bp', hbp', heq⟩ := sumDiff_exists_perm hpa bp
        (by rw [hbperm.length_eq]; exact hlen2)
      exact ⟨sumDiff a.paramsList bp',
        List.mem_map_of_mem _ (List.mem_permutations.mpr (hbp'.trans hbperm)), heq⟩
    · intro v hv
      obtain ⟨bp, hbp, rfl⟩ := List.mem_map.mp hv
      have hbperm : bp.Perm b.paramsList := List.mem_permutations.mp hbp
      obtain ⟨bp', hbp', heq⟩ := sumDiff_exists_perm hpa.symm bp
        (by rw [hbperm.length_eq, hlen2]; exact hpa.length_eq)
      exact ⟨sumDiff a2.paramsList bp',
        List.mem_map_of_mem _ (List.mem_permutations.mpr (hbp'.trans hbperm)), heq⟩
  exact step1.trans step2

/-- Witness for C3: swapping the components of a concrete two-component
mixture leaves the metric unchanged. -/
theorem absolute_diff_params_perm_invariant_witness :
    absolute_diff_params mixA2 mixB = absolute_diff_params mixA mixB :=
  absolute_diff_params_perm_invariant mixA mixB mixA2 mixB rfl
    (List.Perm.swap _ _ _) (List.Perm.refl _)

/-- C10: the metric is non-negative for same-size mixtures, and the distance
of a mixture to itself is zero. -/
theorem absolute_diff_params_nonneg_and_self_zero
    (a b : DistributionMixture)
    (hlen : a.components.length = b.components.length) :
    0 ≤ absolute_diff_params a b ∧ absolute_diff_params a a = 0 := by
  have hself : ∀ m : DistributionMixture,
      m.paramsList ∈ m.paramsList.permutations :=
    fun m => List.mem_permutations.mpr (List.Perm.refl _)
  have hnonneg : ∀ (x : DistributionMixture) (y : DistributionMixture),
      0 ≤ absolute_diff_params x y := by
    intro x y
    have hne : (y.paramsList.permutations.map
        (fun bp => sumDiff x.paramsList bp)) ≠ [] :=
      List.ne_nil_of_mem (List.mem_map_of_mem _ (hself y))
    obtain ⟨bp, _, hmem⟩ := List.mem_map.mp (minD_mem hne)
    rw [absolute_diff_params, ← hmem]
    exact sumDiff_nonneg _ _
  refine ⟨hnonneg a b, le_antisymm ?_ (hnonneg a a)⟩
  have hle : absolute_diff_params a a ≤ sumDiff a.paramsList a.paramsList :=
    minD_le (List.mem_map_of_mem _ (hself a))
  rw [sumDiff_self] at hle
  exact hle

/-- Witness for C10 at concrete mixtures. -/
theorem absolute_diff_params_nonneg_and_self_zero_witness :
    0 ≤ absolute_diff_params mixA mixB ∧ absolute_diff_params mixA mixA = 0 :=
  absolute_diff_params_nonneg_and_self_zero mixA mixB rfl

lemma maxList_le_iff {l : List ℚ} {d : ℚ} (hd : 0 ≤ d) :
    maxList l ≤ d ↔ ∀ x ∈ l, x ≤ d := by
  induction l with
  | nil => simp [maxList, hd]
  | cons x t ih =>
    rw [maxList, List.foldr_cons, max_le_iff]
    rw [maxList] at ih
    rw [ih]
    simp [List.forall_mem_cons]

/-- C7: `ParamDifferBreakpointer(deviation)` signals stop exactly when the
history holds at least two mixtures and the maximum absolute per-parameter
change between the two most recent ones (components matched by position)
is at most `deviation`; with a non-negative deviation that maximum
condition is equivalent to every matched parameter pair differing by at
most `deviation`; with fewer than two entries it never stops. -/
theorem param_differ_breakpointer_characterization (deviation : ℚ) :
    (∀ iteration (history : List DistributionMixture), history.length < 2 →
        (ParamDifferBreakpointer deviation).should_stop iteration history = false)
    ∧ (∀ iteration (pre : List DistributionMixture) (a b : DistributionMixture),
        ((ParamDifferBreakpointer deviation).should_stop iteration
            (pre ++ [a, b]) = true
          ↔ maxAbsParamDiff a b ≤ deviation))
    ∧ (0 ≤ deviation →
        ∀ iteration (pre : List DistributionMixture) (a b : DistributionMixture),
        ((ParamDifferBreakpointer deviation).should_stop iteration
            (pre ++ [a, b]) = true
          ↔ ∀ p ∈ a.paramsList.zip b.paramsList, ∀ q ∈ p.1.zip p.2,
              |q.1 - q.2| ≤ deviation)) := by
  have hrev : ∀ (pre : List DistributionMixture) (a b : DistributionMixture),
      (pre ++ [a, b]).reverse = b :: a :: pre.reverse := by
    intro pre a b
    simp
  have hmain : ∀ iteration (pre : List DistributionMixture) (a b : DistributionMixture),
      ((ParamDifferBreakpointer deviation).should_stop iteration
          (pre ++ [a, b]) = true ↔ maxAbsParamDiff a b ≤ deviation) := by
    intro iteration pre a b
    simp only [ParamDifferBreakpointer, hrev]
    exact decide_eq_true_iff
  refine ⟨?_, hmain, ?_⟩
  · intro iteration history hlen
    match history with
    | [] => rfl
    | [_] => rfl
    | x :: y :: t => exact absurd hlen (by simp)
  · intro hd iteration pre a b
    rw [hmain iteration pre a b, maxAbsParamDiff, maxList_le_iff hd]
    constructor
    · intro h p hp q hq
      have h1 := h _ (List.mem_map_of_mem _ hp)
      rw [paramsMaxAbsDiff, maxList_le_iff hd] at h1
      exact h1 _ (List.mem_map_of_mem _ hq)
    · intro h v hv
      obtain ⟨p, hp, rfl⟩ := List.mem_map.mp hv
      rw [paramsMaxAbsDiff, maxList_le_iff hd]
      intro w hw
      obtain ⟨q, hq, rfl⟩ := List.mem_map.mp hw
      exact h p hp q hq

lemma sum_map_div (l : List ℚ) (n : ℚ) :
    (l.map (fun s => s / n)).sum = l.sum / n := by
  induction l with
  | nil => simp
  | cons x t ih => simp [ih, add_div]

lemma zipWith_add_sum : ∀ {u v : List ℚ}, u.length = v.length →
    (List.zipWith (· + ·) u v).sum = u.sum + v.sum := by
  intro u
  induction u with
  | nil =>
    intro v h
    cases v with
    | nil => simp
    | cons y w => exact absurd h (by simp)
  | cons x t ih =>
    intro v h
    cases v with
    | nil => exact absurd h (by simp)
    | cons y w =>
      rw [List.zipWith_cons_cons, List.sum_cons, List.sum_cons, List.sum_cons,
        ih (by simpa using h)]
      ring

lemma zipWith_add_nonneg : ∀ {u v : List ℚ}, (∀ x ∈ u, 0 ≤ x) →
    (∀ x ∈ v, 0 ≤ x) → ∀ x ∈ List.zipWith (· + ·) u v, 0 ≤ x := by
  intro u
  induction u with
  | nil => intro v _ _ x hx; cases hx
  | cons a t ih =>
    intro v hu hv x hx
    cases v with
    | nil => cases hx
    | cons b w =>
      rw [List.zipWith_cons_cons] at hx
      rcases List.mem_cons.mp hx with h1 | h1
      · rw [h1]
        exact add_nonneg (hu a (List.mem_cons_self _ _)) (hv b (List.mem_cons_self _ _))
      · exact ih (fun y hy => hu y (List.mem_cons_of_mem _ hy))
          (fun y hy => hv y (List.mem_cons_of_mem _ hy)) x h1

lemma foldl_zipWith_length {rows : List (List ℚ)} {K : Nat}
    (hrows : ∀ r ∈ rows, r.length = K) :
    ∀ acc : List ℚ, acc.length = K →
      (rows.foldl (fun a r => List.zipWith (· + ·) a r) acc).length = K := by
  induction rows with
  | nil => intro acc h; simpa
  | cons r rs ih =>
    intro acc h
    rw [List.foldl_cons]
    exact ih (fun r' hr' => hrows r' (List.mem_cons_of_mem _ hr')) _
      (by rw [List.length_zipWith, h, hrows r (List.mem_cons_self _ _)]; simp)

lemma foldl_zipWith_sum {rows : List (List ℚ)} {K : Nat}
    (hrows : ∀ r ∈ rows, r.length = K) :
    ∀ acc : List ℚ, acc.length = K →
      (rows.foldl (fun a r => List.zipWith (· + ·) a r) acc).sum
        = acc.sum + (rows.map List.sum).sum := by
  induction rows with
  | nil => intro acc _; simp
  | cons r rs ih =>
    intro acc h
    rw [List.foldl_cons, List.map_cons, List.sum_cons,
      ih (fun r' hr' => hrows r' (List.mem_cons_of_mem _ hr')) _
        (by rw [List.length_zipWith, h, hrows r (List.mem_cons_self _ _)]; simp),
      zipWith_add_sum (by rw [h, hrows r (List.mem_cons_self _ _)])]
    ring

lemma foldl_zipWith_nonneg {rows : List (List ℚ)}
    (hrows : ∀ r ∈ rows, ∀ x ∈ r, 0 ≤ x) :
    ∀ acc : List ℚ, (∀ x ∈ acc, 0 ≤ x) →
      ∀ x ∈ rows.foldl (fun a r => List.zipWith (· + ·) a r) acc, 0 ≤ x := by
  induction rows with
  | nil => intro acc h; simpa
  | cons r rs ih =>
    intro acc h
    rw [List.foldl_cons]
    exact ih (fun r' hr' => hrows r' (List.mem_cons_of_mem _ hr')) _
      (zipWith_add_nonneg h (hrows r (List.mem_cons_self _ _)))

lemma sum_map_eq_length {rows : List (List ℚ)}
    (h : ∀ r ∈ rows, r.sum = 1) : (rows.map List.sum).sum = (rows.length : ℚ) := by
  induction rows with
  | nil => simp
  | cons r rs ih =>
    rw [List.map_cons, List.sum_cons, h r (List.mem_cons_self _ _),
      ih (fun r' hr' => h r' (List.mem_cons_of_mem _ hr')), List.length_cons]
    push_cast
    ring

lemma eStepRow_facts {mix : DistributionMixture} {x : ℚ} {r : List ℚ}
    (hr : eStepRow mix x = some r)
    (hpri : ∀ p ∈ mix.priors, 0 ≤ p)
    (hden : NonnegDensities mix) :
    r.length = mix.components.length ∧ r.sum = 1 ∧ ∀ v ∈ r, 0 ≤ v := by
  simp only [eStepRow] at hr
  have hwn : ∀ w ∈ mix.components.map
      (fun c => c.2 * c.1.model.density c.1.params x), 0 ≤ w := by
    intro w hw
    obtain ⟨c, hc, rfl⟩ := List.mem_map.mp hw
    exact mul_nonneg (hpri _ (List.mem_map_of_mem _ hc)) (hden c hc _ _)
  by_cases hd : (mix.components.map
      (fun c => c.2 * c.1.model.density c.1.params x)).sum = 0
  · rw [if_pos hd] at hr; cases hr
  · rw [if_neg hd] at hr
    injection hr with hr
    subst hr
    refine ⟨by simp, ?_, ?_⟩
    · rw [sum_map_div]
      exact div_self hd
    · intro v hv
      obtain ⟨w, hw, rfl⟩ := List.mem_map.mp hv
      exact div_nonneg (hwn w hw) (List.sum_nonneg hwn)

lemma eStep_facts {mix : DistributionMixture} {samples : List ℚ}
    {resp : List (List ℚ)} (h : eStep mix samples = some resp)
    (hpri : ∀ p ∈ mix.priors, 0 ≤ p) (hden : NonnegDensities mix) :
    resp.length = samples.length
    ∧ ∀ r ∈ resp, r.length = mix.components.length ∧ r.sum = 1 ∧ ∀ v ∈ r, 0 ≤ v := by
  induction samples generalizing resp with
  | nil =>
    rw [eStep] at h
    injection h with h
    subst h
    exact ⟨rfl, by intro r hr; cases hr⟩
  | cons x xs ih =>
    rw [eStep] at h
    cases hrow : eStepRow mix x with
    | none => rw [hrow] at h; cases h
    | some r =>
      cases hrest : eStep mix xs with
      | none => rw [hrow, hrest] at h; cases h
      | some rs =>
        rw [hrow, hrest] at h
        injection h with h
        subst h
        obtain ⟨hl, hall⟩ := ih hrest
        refine ⟨by simp [hl], ?_⟩
        intro r' hr'
        rcases List.mem_cons.mp hr' with h1 | h1
        · subst h1; exact eStepRow_facts hrow hpri hden
        · exact hall r' h1

lemma mStepComponents_priors (opt : Optimizer) (samples : List ℚ)
    (resp : List (List ℚ)) :
    ∀ (cs : List (Distribution × ℚ)) (pris : List ℚ) (k : Nat),
      cs.length = pris.length →
      (mStepComponents opt samples resp cs pris k).map (fun c => c.2) = pris := by
  intro cs
  induction cs with
  | nil =>
    intro pris k h
    cases pris with
    | nil => rfl
    | cons p ps => exact absurd h (by simp)
  | cons c cs ih =>
    intro pris k h
    cases pris with
    | nil => exact absurd h (by simp)
    | cons pri pris' =>
      simp only [mStepComponents, List.map_cons]
      rw [ih pris' (k + 1) (by simpa using h)]

lemma mStepComponents_models (opt : Optimizer) (samples : List ℚ)
    (resp : List (List ℚ)) :
    ∀ (cs : List (Distribution × ℚ)) (pris : List ℚ) (k : Nat),
      ∀ c' ∈ mStepComponents opt samples resp cs pris k,
        ∃ c ∈ cs, c'.1.model = c.1.model := by
  intro cs
  induction cs with
  | nil => intro pris k c' h; simp [mStepComponents] at h
  | cons c cs ih =>
    intro pris k c' h
    cases pris with
    | nil => simp [mStepComponents] at h
    | cons pri pris' =>
      simp only [mStepComponents] at h
      rcases List.mem_cons.mp h with h1 | h1
      · subst h1; exact ⟨c, List.mem_cons_self _ _, rfl⟩
      · obtain ⟨c₀, hc₀, he⟩ := ih pris' (k + 1) c' h1
        exact ⟨c₀, List.mem_cons_of_mem _ hc₀, he⟩

lemma mStep_StrongOK {opt : Optimizer} {samples : List ℚ}
    {mix : DistributionMixture} {resp : List (List ℚ)}
    (hs : samples ≠ [])
    (hlen : resp.length = samples.length)
    (hrows : ∀ r ∈ resp,
      r.length = mix.components.length ∧ r.sum = 1 ∧ ∀ v ∈ r, 0 ≤ v) :
    StrongOK (mStep opt samples mix resp).1 := by
  have hn : ((samples.length : ℚ)) ≠ 0 :=
    Nat.cast_ne_zero.mpr (fun h0 => hs (List.length_eq_zero.mp h0))
  have hcl : (columnSums mix.components.length resp).length
      = mix.components.length :=
    foldl_zipWith_length (fun r hr => (hrows r hr).1) _ (by simp)
  have hcs : (columnSums mix.components.length resp).sum
      = (resp.map List.sum).sum := by
    have := foldl_zipWith_sum (K := mix.components.length)
      (fun r hr => (hrows r hr).1) (List.replicate mix.components.length 0)
      (by simp)
    simpa [columnSums] using this
  have hcn : ∀ v ∈ columnSums mix.components.length resp, 0 ≤ v :=
    foldl_zipWith_nonneg (fun r hr => (hrows r hr).2.2) _
      (fun v hv => le_of_eq (List.eq_of_mem_replicate hv).symm)
  have hpriors : (mStep opt samples mix resp).1.priors
      = (columnSums mix.components.length resp).map
          (fun s => s / (samples.length : ℚ)) := by
    simp only [mStep, DistributionMixture.priors]
    exact mStepComponents_priors opt samples resp mix.components _ 0
      (by simp [hcl])
  refine ⟨?_, ?_⟩
  · intro p hp
    rw [hpriors] at hp
    obtain ⟨s, hsm, rfl⟩ := List.mem_map.mp hp
    exact div_nonneg (hcn s hsm) (Nat.cast_nonneg _)
  · rw [hpriors, sum_map_div, hcs, sum_map_eq_length (fun r hr => (hrows r hr).2.1),
      hlen]
    exact div_self hn

lemma mStep_NonnegDensities {opt : Optimizer} {samples : List ℚ}
    {mix : DistributionMixture} {resp : List (List ℚ)}
    (hden : NonnegDensities mix) :
    NonnegDensities (mStep opt samples mix resp).1 := by
  intro c' hc' θ x
  obtain ⟨c, hc, he⟩ := mStepComponents_models opt samples resp mix.components _ 0 c'
    (by simpa [mStep] using hc')
  rw [he]
  exact hden c hc θ x

lemma StrongOK.toMixtureOK {m : DistributionMixture} (h : StrongOK m) :
    MixtureOK m := by
  refine ⟨h.1, ?_⟩
  rw [h.2]
  norm_num

lemma loop_history_MixtureOK {em : EM} {samples : List ℚ} (hs : samples ≠ []) :
    ∀ (fuel : Nat) (cur : DistributionMixture)
      (hist : List DistributionMixture) (iteration calls : Nat),
      StrongOK cur → NonnegDensities cur →
      (∀ m ∈ hist, MixtureOK m) →
      ∀ m ∈ (EM.loop em samples fuel cur hist iteration calls).history,
        MixtureOK m := by
  intro fuel
  induction fuel with
  | zero =>
    intro cur hist iteration calls _ _ hh
    simpa [EM.loop] using hh
  | succ fuel ih =>
    intro cur hist iteration calls hcur hden hh
    rw [EM.loop]
    cases hE : eStep cur samples with
    | none => simpa using hh
    | some resp =>
      dsimp only
      obtain ⟨hlen, hrows⟩ := eStep_facts hE hcur.1 hden
      have hstep : StrongOK (mStep em.optimizer samples cur resp).1 :=
        mStep_StrongOK hs hlen hrows
      have hden' : NonnegDensities (mStep em.optimizer samples cur resp).1 :=
        mStep_NonnegDensities hden
      cases hchk : em.distribution_checker.is_invalid
          (mStep em.optimizer samples cur resp).1 with
      | some e => simpa using hh
      | none =>
        have hh' : ∀ m ∈ hist ++ [(mStep em.optimizer samples cur resp).1],
            MixtureOK m := by
          intro m hm
          rcases List.mem_append.mp hm with h1 | h1
          · exact hh m h1
          · rw [List.mem_singleton] at h1
            subst h1
            exact hstep.toMixtureOK
        by_cases hbp : em.breakpointer.should_stop (iteration + 1)
            (hist ++ [(mStep em.optimizer samples cur resp).1]) = true
        · simpa [hbp] using hh'
        · simpa [hbp] using ih _ _ _ _ hstep hden' hh'

lemma priors_of_const_pairs (ds : List Distribution) (c : ℚ) :
    (DistributionMixture.mk (ds.map (fun d => (d, c)))).priors
      = List.replicate ds.length c := by
  induction ds with
  | nil => rfl
  | cons d t ih =>
    simp only [DistributionMixture.priors] at ih ⊢
    simp only [List.map_cons, List.length_cons, List.replicate_succ]
    rw [ih]

lemma from_distributions_MixtureOK {ds : List Distribution}
    {mc : DistributionMixture}
    (h : DistributionMixture.from_distributions ds = .ok mc) : MixtureOK mc := by
  rw [DistributionMixture.from_distributions] at h
  by_cases hds : ds.isEmpty
  · rw [if_pos hds] at h; cases h
  · rw [if_neg hds] at h
    injection h with h
    subst h
    have hne : ds ≠ [] := by
      intro h0
      exact hds (by simp [h0])
    have hlen : ((ds.length : ℚ)) ≠ 0 :=
      Nat.cast_ne_zero.mpr (fun h0 => hne (List.length_eq_zero.mp h0))
    have hpriors : (DistributionMixture.mk
        (ds.map (fun d => (d, (1 : ℚ) / (ds.length : ℚ))))).priors
        = List.replicate ds.length ((1 : ℚ) / (ds.length : ℚ)) :=
      priors_of_const_pairs ds _
    refine ⟨?_, ?_⟩
    · intro p hp
      rw [hpriors] at hp
      rw [List.eq_of_mem_replicate hp]
      positivity
    · rw [hpriors, List.sum_replicate, nsmul_eq_mul, mul_one_div_cancel hlen]
      norm_num

/-- C4: every mixture produced at construction by `from_distributions`
satisfies the prior-probability invariant, and — for a problem whose
initial mixture has non-negative priors summing to 1 and whose component
models have non-negative densities — so does every mixture in the history
of any `EM.solve` run (the initial mixture plus every EM update that was
exposed): priors non-negative, sum within `1e-9` of `1`. -/
theorem mixture_prior_invariant
    (em : EM) (fuel : Nat) (problem : Problem)
    (hpri : StrongOK problem.distributions)
    (hden : NonnegDensities problem.distributions) :
    (∀ (ds : List Distribution) (mc : DistributionMixture),
        DistributionMixture.from_distributions ds = .ok mc → MixtureOK mc)
    ∧ ∀ m ∈ (em.solve fuel problem).history, MixtureOK m := by
  refine ⟨fun ds mc h => from_distributions_MixtureOK h, ?_⟩
  rw [EM.solve]
  by_cases hs : problem.samples.isEmpty
  · rw [if_pos hs]
    intro m hm
    cases hm
  · rw [if_neg hs]
    exact loop_history_MixtureOK (by simpa using hs) fuel problem.distributions
      _ 0 0 hpri hden
      (by
        intro m hm
        rw [List.mem_singleton] at hm
        subst hm
        exact hpri.toMixtureOK)

/-- Witness for C4 at a concrete engine, problem and mixture. -/
theorem mixture_prior_invariant_witness :
    (∀ (ds : List Distribution) (mc : DistributionMixture),
        DistributionMixture.from_distributions ds = .ok mc → MixtureOK mc)
    ∧ ∀ m ∈ ((EM.mk ⟨fun _ _ => true⟩ ⟨fun _ => none⟩ ⟨"opt", fun _ p => p⟩).solve 1
        ⟨[0], mixA⟩).history, MixtureOK m :=
  mixture_prior_invariant
    (EM.mk ⟨fun _ _ => true⟩ ⟨fun _ => none⟩ ⟨"opt", fun _ p => p⟩) 1 ⟨[0], mixA⟩
    (by
      refine ⟨?_, ?_⟩
      · intro p hp
        simp [mixA, DistributionMixture.priors] at hp
        rw [hp]
        norm_num
      · norm_num [mixA, DistributionMixture.priors])
    (by
      intro c hc θ x
      simp [mixA] at hc
      rcases hc with hc | hc <;> rw [hc] <;> norm_num [unitModel])

/-- Witness for C7: at deviation 1, a one-element history never stops, and a
two-element history of equal mixtures stops. -/
theorem param_differ_breakpointer_characterization_witness :
    (ParamDifferBreakpointer 1).should_stop 0 [mixA] = false
    ∧ (ParamDifferBreakpointer 1).should_stop 0 ([] ++ [mixA, mixA]) = true :=
  ⟨(param_differ_breakpointer_characterization 1).1 0 [mixA] (by decide),
   ((param_differ_breakpointer_characterization 1).2.1 0 [] mixA mixA).mpr
     (by norm_num [maxAbsParamDiff, mixA, DistributionMixture.paramsList,
       paramsMaxAbsDiff, maxList])⟩

/-- C2: for every objective `func` and initial vector `params`,
`ScipyCOBYLA.minimize` returns the `x` field of
`scipy.optimize.minimize(func, params, method="COBYLA")` and
`ScipySLSQP.minimize` the `x` field of the `"SLSQP"` call; under the
spec's contract that the external routine returns a same-length vector,
both wrappers return a vector of the same length as `params`. -/
theorem scipy_wrappers_delegate_and_preserve_length
    (scipy_minimize : ScipyMinimizeFn)
    (func : Params → ℚ) (params : Params)
    (hlen : ∀ method f p, ((scipy_minimize method f p).x).length = p.length) :
    ScipyCOBYLA.minimize scipy_minimize func params
        = (scipy_minimize "COBYLA" func params).x
    ∧ ScipySLSQP.minimize scipy_minimize func params
        = (scipy_minimize "SLSQP" func params).x
    ∧ (ScipyCOBYLA.minimize scipy_minimize func params).length = params.length
    ∧ (ScipySLSQP.minimize scipy_minimize func params).length = params.length :=
  ⟨rfl, rfl, hlen _ _ _, hlen _ _ _⟩

/-- Witness for C2 at a concrete scipy stub, objective and initial point. -/
theorem scipy_wrappers_delegate_and_preserve_length_witness :
    (ScipyCOBYLA.minimize (fun _ _ p => OptimizeResult.mk p) (fun _ => 0) [1, 2]).length
        = ([1, 2] : Params).length
    ∧ (ScipySLSQP.minimize (fun _ _ p => OptimizeResult.mk p) (fun _ => 0) [1, 2]).length
        = ([1, 2] : Params).length :=
  ⟨(scipy_wrappers_delegate_and_preserve_length (fun _ _ p => OptimizeResult.mk p)
      (fun _ => 0) [1, 2] (fun _ _ _ => rfl)).2.2.1,
   (scipy_wrappers_delegate_and_preserve_length (fun _ _ p => OptimizeResult.mk p)
      (fun _ => 0) [1, 2] (fun _ _ _ => rfl)).2.2.2⟩

/-- C5: a problem with an empty sample sequence makes `EM.solve` return
`Failure{InvalidProblemError}` before any iteration begins (empty history)
and without ever invoking the Optimizer's `minimize` (zero calls). -/
theorem solve_empty_samples_fails_without_optimizer
    (em : EM) (fuel : Nat) (problem : Problem)
    (h : problem.samples = []) :
    (em.solve fuel problem).result = .failure .invalidProblem
    ∧ (em.solve fuel problem).optimizerCalls = 0
    ∧ (em.solve fuel problem).history = [] := by
  simp [EM.solve, h]

/-- Witness for C5 at a concrete empty problem and engine. -/
theorem solve_empty_samples_fails_without_optimizer_witness :
    ((EM.mk ⟨fun _ _ => false⟩ ⟨fun _ => none⟩ ⟨"opt", fun _ p => p⟩).solve 5
        ⟨[], ⟨[]⟩⟩).result = .failure .invalidProblem
    ∧ ((EM.mk ⟨fun _ _ => false⟩ ⟨fun _ => none⟩ ⟨"opt", fun _ p => p⟩).solve 5
        ⟨[], ⟨[]⟩⟩).optimizerCalls = 0
    ∧ ((EM.mk ⟨fun _ _ => false⟩ ⟨fun _ => none⟩ ⟨"opt", fun _ p => p⟩).solve 5
        ⟨[], ⟨[]⟩⟩).history = [] :=
  solve_empty_samples_fails_without_optimizer _ 5 _ rfl

/-- C6: composing breakpointers with `+` yields the logical OR of the
members' `should_stop`; composing distribution checkers yields a composite
that is invalid exactly when some member is invalid, short-circuiting on
the first member's invalidity. -/
theorem breakpointer_and_checker_composition_laws
    (a b : Breakpointer) (c d : DistributionChecker)
    (iteration : Nat) (history : List DistributionMixture)
    (m : DistributionMixture) :
    ((a.add b).should_stop iteration history
        = (a.should_stop iteration history || b.should_stop iteration history))
    ∧ (((c.add d).is_invalid m).isSome
        ↔ ((c.is_invalid m).isSome ∨ ((d.is_invalid m).isSome)))
    ∧ (∀ e, c.is_invalid m = some e → (c.add d).is_invalid m = some e)
    ∧ (c.is_invalid m = none → (c.add d).is_invalid m = d.is_invalid m) := by
  refine ⟨?_, ?_, ?_, ?_⟩
  · simp [Breakpointer.add, UnionBreakpointer.should_stop, List.any]
  · cases h : c.is_invalid m <;>
      cases hd : d.is_invalid m <;>
        simp [DistributionChecker.add, UnionDistributionChecker.is_invalid,
          List.findSome?, h, hd]
  · intro e he
    simp [DistributionChecker.add, UnionDistributionChecker.is_invalid,
      List.findSome?, he]
  · intro hc
    cases hd : d.is_invalid m <;>
      simp [DistributionChecker.add, UnionDistributionChecker.is_invalid,
        List.findSome?, hc, hd]

/-- Witness for C6 at concrete breakpointers and checkers. -/
theorem breakpointer_and_checker_composition_laws_witness :
    ((Breakpointer.mk (fun _ _ => true)).add ⟨fun _ _ => false⟩).should_stop 0 []
        = (true || false)
    ∧ ((DistributionChecker.mk (fun _ => some .degenerateMixture)).add
        ⟨fun _ => none⟩).is_invalid ⟨[]⟩ = some .degenerateMixture :=
  ⟨(breakpointer_and_checker_composition_laws ⟨fun _ _ => true⟩ ⟨fun _ _ => false⟩
      ⟨fun _ => some .degenerateMixture⟩ ⟨fun _ => none⟩ 0 [] ⟨[]⟩).1,
   (breakpointer_and_checker_composition_laws ⟨fun _ _ => true⟩ ⟨fun _ _ => false⟩
      ⟨fun _ => some .degenerateMixture⟩ ⟨fun _ => none⟩ 0 [] ⟨[]⟩).2.2.1
      .degenerateMixture rfl⟩

/-- C8: every value `EM.solve` returns is in exactly one of two states:
`success` carrying a final mixture as content and no error, or `failure`
carrying an error and no content — never both, never neither (and, the
function being total, no exception escapes). -/
theorem solve_result_exactly_one_variant
    (em : EM) (fuel : Nat) (problem : Problem) :
    ((∃ m, (em.solve fuel problem).result = .success m
          ∧ ((em.solve fuel problem).result).content = some m
          ∧ ((em.solve fuel problem).result).error = none)
      ∧ ¬ ∃ e, (em.solve fuel problem).result = .failure e)
    ∨ ((∃ e, (em.solve fuel problem).result = .failure e
          ∧ ((em.solve fuel problem).result).error = some e
          ∧ ((em.solve fuel problem).result).content = none)
      ∧ ¬ ∃ m, (em.solve fuel problem).result = .success m) := by
  rcases h : (em.solve fuel problem).result with m | e
  · exact Or.inl ⟨⟨m, rfl, rfl, rfl⟩, by rintro ⟨e, he⟩; cases he⟩
  · exact Or.inr ⟨⟨e, rfl, rfl, rfl⟩, by rintro ⟨m, hm⟩; cases hm⟩

/-- C9: the test body computes `c_start_params` from `params` (not from
`start_params`), so the `Problem` it submits to `EM.solve`, and hence the
whole run outcome, is identical for any two values of `start_params`. -/
theorem test_problem_independent_of_start_params
    (models : List Model) (params sp1 sp2 : List Params)
    (size : Nat) (shuffle : List ℚ → List ℚ) (em : EM) (fuel : Nat) :
    buildTestProblem models params sp1 size shuffle
        = buildTestProblem models params sp2 size shuffle
    ∧ (buildTestProblem models params sp1 size shuffle).map (em.solve fuel)
        = (buildTestProblem models params sp2 size shuffle).map (em.solve fuel) :=
  ⟨rfl, rfl⟩

end EMAlgo
